import Mathlib

/-!
Verification of the similarity/statistics engine in `src/app/api/analyze/route.ts`
(repository Quddos/employee).

Modelling conventions:
* JavaScript numbers transported through JSON are always finite, so a scalar
  number value is modelled as an exact rational (`ℚ`).  Floating point rounding
  is abstracted away: arithmetic is exact.
* A JS object (a dataset row) is an insertion-ordered association list
  `List (String × Value)`; JS guarantees that the keys are distinct, which is
  taken as a hypothesis where a statement needs it.  Property access
  `row?.[k]` is `getField`, returning `none` for an absent key.
* `Number(string)` is modelled by `jsParseNumber`, covering the
  StringNumericLiteral grammar (whitespace trimming, empty string ↦ 0, sign,
  `Infinity`, decimal literals with fraction and exponent, `0x`/`0o`/`0b`
  radix literals); its result type `JSNum` distinguishes finite values from
  `Infinity`, `-Infinity` and `NaN`.
* `String(value)` is `jsToString`; for numbers the model renders integers the
  way JS does (`"1"`, `"-3"`); a non-integral rational is rendered as Lean's
  `num/den` text, which differs from JS but is never equal to `"yes"`, `"1"`
  or `"true"`, the only comparisons the code performs on coerced numbers.
* `Array.prototype.sort` with a consistent numeric comparator is (per ES2019)
  a stable sort; it is modelled by the stable insertion sort `stableSort`.
* `Object.entries` on an ordinary object follows `[[OwnPropertyKeys]]`:
  integer-index keys (canonical numeric strings below 2³² − 1) first in
  ascending numeric order, then the other string keys in insertion order —
  modelled by `jsEntries` over the insertion-ordered accumulator.
* The code takes square roots twice (`Math.sqrt(variance)` for the standard
  deviation and `Math.sqrt(...)` for the Euclidean distance) and both uses are
  composed away exactly: `std > 0 ↔ variance > 0` (so the zero-variance
  fallback branch is on `variance > 0`), the divisor enters every distance
  only through its square (`((a-m)/σ − (b-m)/σ)² = (a-b)²/σ²`), and
  `x ↦ √x` is strictly monotone on nonnegatives, so ranking by the exact
  squared distance `dist2` is the same ranking the code computes.
-/

namespace AnalyzeRoute

/-- A scalar cell value of a dataset row: absent is `Option.none` one level up,
`null`, a (finite, JSON-transported) number, text, or a boolean. -/
inductive Value where
  | vnull
  | num (q : ℚ)
  | str (s : String)
  | bool (b : Bool)
deriving DecidableEq, Repr

/-- A dataset row (`DatasetRow = Record<string, unknown>`): insertion-ordered
field list. -/
abbrev Rec := List (String × Value)

/-- `row?.[k]`: the value of field `k`, `none` when absent. -/
def getField (r : Rec) (k : String) : Option Value :=
  r.lookup k

/-- The keys of a row, in insertion order (`Object.keys`). -/
def recKeys (r : Rec) : List String :=
  r.map Prod.fst

/-- Result of JS `Number(...)` conversion. -/
inductive JSNum where
  | fin (q : ℚ)
  | inf
  | negInf
  | nan
deriving DecidableEq, Repr

/-- `Number.isNaN` on a conversion result. -/
def JSNum.isNaN : JSNum → Bool
  | .nan => true
  | _ => false

/-- `Number.isFinite` on a conversion result. -/
def JSNum.isFinite : JSNum → Bool
  | .fin _ => true
  | _ => false

/-- The JS WhiteSpace/LineTerminator characters relevant here (ASCII subset:
space, tab, line feed, carriage return, vertical tab, form feed). -/
def jsWhitespace (c : Char) : Bool :=
  c = ' ' || c = '\t' || c = '\n' || c = '\r' || c = '\x0b' || c = '\x0c'

/-- Strip leading and trailing whitespace from a character list. -/
def trimChars (l : List Char) : List Char :=
  ((l.dropWhile jsWhitespace).reverse.dropWhile jsWhitespace).reverse

/-- JS `String.prototype.trim` / the implicit trimming of `Number(...)`. -/
def jsTrim (s : String) : String :=
  ⟨trimChars s.data⟩

/-- Decimal digit value of a character. -/
def digitVal (c : Char) : Option ℕ :=
  if '0' ≤ c ∧ c ≤ '9' then some (c.toNat - '0'.toNat) else none

/-- Hexadecimal digit value of a character. -/
def hexDigitVal (c : Char) : Option ℕ :=
  if '0' ≤ c ∧ c ≤ '9' then some (c.toNat - '0'.toNat)
  else if 'a' ≤ c ∧ c ≤ 'f' then some (c.toNat - 'a'.toNat + 10)
  else if 'A' ≤ c ∧ c ≤ 'F' then some (c.toNat - 'A'.toNat + 10)
  else none

/-- Octal digit value of a character. -/
def octDigitVal (c : Char) : Option ℕ :=
  if '0' ≤ c ∧ c ≤ '7' then some (c.toNat - '0'.toNat) else none

/-- Binary digit value of a character. -/
def binDigitVal (c : Char) : Option ℕ :=
  if c = '0' then some 0 else if c = '1' then some 1 else none

/-- Read a run of digits in the given radix, failing on any non-digit. -/
def parseNatAux (dv : Char → Option ℕ) (radix : ℕ) : List Char → ℕ → Option ℕ
  | [], acc => some acc
  | c :: cs, acc =>
    match dv c with
    | some d => parseNatAux dv radix cs (acc * radix + d)
    | none => none

/-- A nonempty all-digit string in the given radix, as a natural number. -/
def parseNatAll (dv : Char → Option ℕ) (radix : ℕ) (l : List Char) : Option ℕ :=
  if l.isEmpty then none else parseNatAux dv radix l 0

/-- Numeric value of a list of decimal digits (most significant first). -/
def natFromDigits (l : List Char) : ℕ :=
  l.foldl (fun acc c => acc * 10 + (digitVal c).getD 0) 0

/-- Is `c` a decimal digit? -/
def isDig (c : Char) : Bool :=
  (digitVal c).isSome

/-- Unsigned decimal literal: `digits`, `digits.digits`, `.digits`, each with an
optional `e`/`E` exponent with optional sign.  `none` when the text is not a
complete literal. -/
def parseDecimal (l : List Char) : Option ℚ :=
  let ip := l.takeWhile isDig
  let rest1 := l.dropWhile isDig
  let fp := match rest1 with
    | '.' :: r => r.takeWhile isDig
    | _ => []
  let rest2 := match rest1 with
    | '.' :: r => r.dropWhile isDig
    | _ => rest1
  if ip.isEmpty ∧ fp.isEmpty then none
  else
    let mant : ℚ := ((natFromDigits ip * 10 ^ fp.length + natFromDigits fp : ℕ) : ℚ) /
      ((10 ^ fp.length : ℕ) : ℚ)
    match rest2 with
    | [] => some mant
    | e :: r =>
      if e = 'e' ∨ e = 'E' then
        let sgn : ℤ := match r with
          | '-' :: _ => -1
          | _ => 1
        let r' := match r with
          | '-' :: t => t
          | '+' :: t => t
          | _ => r
        match parseNatAll digitVal 10 r' with
        | some ex => some (mant * (10 : ℚ) ^ (sgn * (ex : ℤ)))
        | none => none
      else none

/-- Signed part of the grammar: optional sign, then `Infinity` or a decimal
literal. -/
def jsParseSigned (t : List Char) : JSNum :=
  let sgn : ℤ := match t with
    | '-' :: _ => -1
    | _ => 1
  let core := match t with
    | '-' :: r => r
    | '+' :: r => r
    | _ => t
  if core = "Infinity".toList then
    if sgn = 1 then .inf else .negInf
  else
    match parseDecimal core with
    | some q => .fin ((sgn : ℚ) * q)
    | none => .nan

/-- Grammar dispatch after trimming: radix-prefixed literals (which admit no
sign) or the signed decimal/`Infinity` form. -/
def jsParseCore (t : List Char) : JSNum :=
  match t with
  | '0' :: c :: rest =>
    if c = 'x' ∨ c = 'X' then
      match parseNatAll hexDigitVal 16 rest with
      | some n => .fin (n : ℚ)
      | none => .nan
    else if c = 'o' ∨ c = 'O' then
      match parseNatAll octDigitVal 8 rest with
      | some n => .fin (n : ℚ)
      | none => .nan
    else if c = 'b' ∨ c = 'B' then
      match parseNatAll binDigitVal 2 rest with
      | some n => .fin (n : ℚ)
      | none => .nan
    else jsParseSigned t
  | _ => jsParseSigned t

/-- JS `Number(string)`: trim whitespace, empty ↦ 0, otherwise parse the
StringNumericLiteral grammar; anything else is `NaN`. -/
def jsParseNumber (s : String) : JSNum :=
  let t := (jsTrim s).toList
  if t.isEmpty then .fin 0 else jsParseCore t

/-- `isNumericLike` from route.ts.  `null`/`undefined` are rejected; a number
passes `Number.isFinite` (always true for a JSON-transported number); a string
must be nonempty after trimming and `Number(trimmed)` must not be `NaN`; every
other type falls through to `false`. -/
def isNumericLike : Option Value → Bool
  | none => false
  | some .vnull => false
  | some (.num _) => true
  | some (.str s) =>
    let trimmed := jsTrim s
    if trimmed = "" then false
    else !(jsParseNumber trimmed).isNaN
  | some (.bool _) => false

/-- `toNumber` from route.ts: a number is kept when finite (always, for a
JSON-transported number); a string goes through `Number(...)` and is kept only
when the result is finite, else `0`; everything else is `0`. -/
def toNumber : Option Value → ℚ
  | some (.num q) => q
  | some (.str s) =>
    match jsParseNumber s with
    | .fin q => q
    | _ => 0
  | _ => 0

/-- JS `String(value)` on a scalar value.  Integral numbers render exactly as
in JS; a non-integral rational is rendered as `num/den`, which is adequate for
this code because coerced numbers are only ever compared against `"yes"`,
`"1"`, `"true"` or used as department labels. -/
def jsToString : Value → String
  | .vnull => "null"
  | .num q => if q.den = 1 then toString q.num else toString q
  | .str s => s
  | .bool true => "true"
  | .bool false => "false"

/-- ASCII lower-casing of one character (the fragment of JS `toLowerCase`
exercised by this code, whose comparisons are against ASCII constants). -/
def lowerChar (c : Char) : Char :=
  if 'A' ≤ c ∧ c ≤ 'Z' then Char.ofNat (c.toNat + 32) else c

/-- JS `String.prototype.toLowerCase` (ASCII fragment). -/
def jsToLower (s : String) : String :=
  ⟨s.data.map lowerChar⟩

/-- `String(row?.[ATTRITION_FIELD] ?? "").toLowerCase()`. -/
def attritionText (r : Rec) : String :=
  (match getField r "Attrition" with
    | none => ""
    | some .vnull => ""
    | some v => jsToString v) |> jsToLower

/-- The attrition test: the coerced, lower-cased attrition field equals
`"yes"`, `"1"` or `"true"`. -/
def isAttrited (r : Rec) : Bool :=
  let a := attritionText r
  a = "yes" ∨ a = "1" ∨ a = "true"

/-- `String(row?.[DEPARTMENT_FIELD] ?? "Unknown Department")`: only a missing
or `null` department falls back to the fixed label. -/
def departmentLabel (r : Rec) : String :=
  match getField r "Department" with
  | none => "Unknown Department"
  | some .vnull => "Unknown Department"
  | some v => jsToString v

/-- Running per-department accumulator (`{ count, attr }`). -/
structure DeptStat where
  count : ℕ
  attr : ℕ
deriving DecidableEq, Repr

/-- Record one row under department `d` (attrited when `a`): bump the existing
entry, or append a fresh one — a JS object records each key at its insertion
position (enumeration later reorders integer-index keys, see `jsEntries`). -/
def bump (d : String) (a : Bool) : List (String × DeptStat) → List (String × DeptStat)
  | [] => [(d, ⟨1, if a then 1 else 0⟩)]
  | (k, st) :: rest =>
    if k = d then (k, ⟨st.count + 1, st.attr + if a then 1 else 0⟩) :: rest
    else (k, st) :: bump d a rest

/-- The `departmentStats` object built by the `dataset.forEach` loop, as an
association list in key-insertion order; `Object.entries` reads it through
`jsEntries`. -/
def departmentStats (ds : List Rec) : List (String × DeptStat) :=
  ds.foldl (fun acc r => bump (departmentLabel r) (isAttrited r) acc) []

/-- The `attritionCount` accumulator of the `forEach` loop. -/
def attritionCount (ds : List Rec) : ℕ :=
  ds.foldl (fun acc r => if isAttrited r then acc + 1 else acc) 0

/-- `Number(x.toFixed(2))`: round to two decimal places (nearest, halves away
from zero for the nonnegative values arising here). -/
def round2 (q : ℚ) : ℚ :=
  (round (q * 100) : ℤ) / 100

/-- `summary.attritionRate`. -/
def attritionRate (ds : List Rec) : ℚ :=
  round2 ((attritionCount ds : ℚ) / (ds.length : ℚ) * 100)

/-- One `DepartmentSummary` entry. -/
structure DeptSummary where
  department : String
  count : ℕ
  attritionRate : ℚ
deriving DecidableEq, Repr

/-- Stable insertion of `x`: `keep y x = true` means the comparator lets `y`
stay in front of the newcomer `x` (for a numeric comparator `c`, this is
`c(y, x) ≤ 0`). -/
def insertStable (keep : α → α → Bool) (x : α) : List α → List α
  | [] => [x]
  | y :: ys => if keep y x then y :: insertStable keep x ys else x :: y :: ys

/-- Stable sort (the ES2019 guarantee for `Array.prototype.sort` with a
consistent comparator): insert the elements left to right. -/
def stableSort (keep : α → α → Bool) (l : List α) : List α :=
  l.foldl (fun acc x => insertStable keep x acc) []

/-- The array-index value of a string key per ECMAScript: a canonical string
of decimal digits (no leading zero except `"0"` itself) whose numeric value is
below `2³² − 1`.  Such keys enumerate before all other string keys. -/
def arrayIndexVal (s : String) : Option ℕ :=
  let l := s.data
  if l.isEmpty then none
  else if !l.all isDig then none
  else if l.length ≠ 1 ∧ l.head? = some '0' then none
  else
    let v := natFromDigits l
    if v < 2 ^ 32 - 1 then some v else none

/-- ECMAScript `[[OwnPropertyKeys]]` / `Object.entries` enumeration order for
an ordinary object with string keys: the integer-index keys first, in
ascending numeric order, then the remaining keys in insertion order.  The
object's keys are distinct, so any sort of the index keys by their numeric
value realizes the standard's order; a stable one is used here. -/
def jsEntries {β : Type} (l : List (String × β)) : List (String × β) :=
  stableSort
      (fun y x => decide ((arrayIndexVal y.1).getD 0 ≤ (arrayIndexVal x.1).getD 0))
      (l.filter fun e => (arrayIndexVal e.1).isSome) ++
    l.filter fun e => !(arrayIndexVal e.1).isSome

/-- The `.map` step over `Object.entries(departmentStats)`, in the entries
enumeration order. -/
def deptSummaries (ds : List Rec) : List DeptSummary :=
  (jsEntries (departmentStats ds)).map fun e =>
    ⟨e.1, e.2.count, round2 ((e.2.attr : ℚ) / (e.2.count : ℚ) * 100)⟩

/-- `summary.topDepartments`: stable sort by descending attrition rate
(comparator `(a, b) => b.attritionRate - a.attritionRate`), first 5. -/
def topDepartments (ds : List Rec) : List DeptSummary :=
  (stableSort (fun y x => decide (x.attritionRate ≤ y.attritionRate)) (deptSummaries ds)).take 5

/-- `IGNORE_NUMERIC_COLUMNS`. -/
def ignoreNumericColumns : List String :=
  ["employeenumber", "employeeid"]

/-- `Object.keys(dataset[0] ?? {})`. -/
def candidateColumns (ds : List Rec) : List String :=
  recKeys (ds.headD [])

/-- The `numericCount` reduce for one candidate column. -/
def numericCount (ds : List Rec) (c : String) : ℕ :=
  ds.foldl (fun acc r => if isNumericLike (getField r c) then acc + 1 else acc) 0

/-- `summary.numericCols`: candidates of the first row, minus the excluded
identifier names (case-insensitively), kept when at least 70 % of the rows
hold a numeric-like value. -/
def numericCols (ds : List Rec) : List String :=
  candidateColumns ds |>.filter fun c =>
    !ignoreNumericColumns.contains (jsToLower c) &&
      decide ((7 : ℚ) / 10 ≤ (numericCount ds c : ℚ) / (ds.length : ℚ))

/-- One row of `numericMatrix`: the coerced values of the qualifying columns. -/
def numericRow (ds : List Rec) (r : Rec) : List ℚ :=
  (numericCols ds).map fun c => toNumber (getField r c)

/-- `numericMatrix`. -/
def numericMatrix (ds : List Rec) : List (List ℚ) :=
  ds.map (numericRow ds)

/-- Entry `(r, j)` of the numeric matrix (`numericRow[columnIndex] ?? 0`). -/
def rawAt (ds : List Rec) (r j : ℕ) : ℚ :=
  ((numericMatrix ds).getD r []).getD j 0

/-- `means[j]`: the column total accumulated by `reduce`, divided by the number
of rows — every record, the target included. -/
def colMean (ds : List Rec) (j : ℕ) : ℚ :=
  ((numericMatrix ds).foldl (fun acc row => acc + row.getD j 0) 0) /
    ((numericMatrix ds).length : ℚ)

/-- The population variance of column `j`: squared deviations accumulated by
`reduce`, divided by the row count (not count − 1). -/
def colVariance (ds : List Rec) (j : ℕ) : ℚ :=
  ((numericMatrix ds).foldl (fun acc row => acc + (row.getD j 0 - colMean ds j) ^ 2) 0) /
    ((numericMatrix ds).length : ℚ)

/-- The square of `stdDevs[j]`.  The code computes `std = Math.sqrt(variance)`
and keeps it when `std > 0`, else substitutes `1`; since `√v > 0 ↔ v > 0` and
the standard deviation only ever enters the result through its square, the
model tracks `effVar j = stdDevs[j]²` exactly. -/
def effVar (ds : List Rec) (j : ℕ) : ℚ :=
  if 0 < colVariance ds j then colVariance ds j else 1

/-- Numerator of the normalized entry `(r, j)`: `value - means[j]`.  The
normalized value itself is this divided by `stdDevs[j]`, so it is `0` exactly
when this numerator is `0`. -/
def normNumerator (ds : List Rec) (r j : ℕ) : ℚ :=
  rawAt ds r j - colMean ds j

/-- Column `j`'s contribution to the squared distance between rows `r` and
`t`: `((raw_r − m)/σ − (raw_t − m)/σ)² = (raw_r − raw_t)² / σ²`. -/
def dist2Term (ds : List Rec) (t r j : ℕ) : ℚ :=
  (rawAt ds r j - rawAt ds t j) ^ 2 / effVar ds j

/-- The exact square of the Euclidean distance the code computes between rows
`r` and `t` (the `reduce` inside `distances`, with the two square roots
composed away). -/
def dist2 (ds : List Rec) (t r : ℕ) : ℚ :=
  (List.range (numericCols ds).length).foldl (fun acc j => acc + dist2Term ds t r j) 0

/-- One `SimilarEmployee` entry; `dist2` is the square of the reported
distance. -/
structure Sim where
  idx : ℕ
  dist2 : ℚ
  row : Rec
deriving DecidableEq, Repr

/-- The `distances` array before sorting: one entry per row, in row order. -/
def sims (ds : List Rec) (t : ℕ) : List Sim :=
  (List.range ds.length).map fun r => ⟨r, dist2 ds t r, ds.getD r []⟩

/-- `distances` after `.sort((a, b) => a.distance - b.distance)`: stable sort
ascending by distance — equivalently by squared distance, `√` being strictly
monotone. -/
def sortedSims (ds : List Rec) (t : ℕ) : List Sim :=
  stableSort (fun y x => decide (y.dist2 ≤ x.dist2)) (sims ds t)

/-- `similar`: drop the target's own entry, keep the first 10. -/
def similar (ds : List Rec) (t : ℕ) : List Sim :=
  ((sortedSims ds t).filter fun e => e.idx ≠ t).take 10

/-- The success payload (`AnalyzeResponse`). -/
structure AnalyzeOk where
  total : ℕ
  attritionRate : ℚ
  topDepartments : List DeptSummary
  numericCols : List String
  employee : Rec
  similar : List Sim
deriving DecidableEq, Repr

/-- The `POST` handler after the payload-shape check: the two request-level
validations (empty dataset, out-of-range index), then the full analysis.  The
index arrives as a JS number; the spec's input contract (§6) supplies an
integer, modelled as `ℤ`. -/
def analyze (ds : List Rec) (index : ℤ) : Except String AnalyzeOk :=
  if ds.length = 0 then .error "Dataset is empty."
  else if index < 0 ∨ (ds.length : ℤ) ≤ index then
    .error "Selected employee index is out of bounds."
  else
    let i := index.toNat
    .ok ⟨ds.length, attritionRate ds, topDepartments ds, numericCols ds,
      ds.getD i [], similar ds i⟩

/-! ### Generic fold lemmas -/

theorem foldl_add_count {α : Type} (p : α → Bool) (l : List α) (n : ℕ) :
    l.foldl (fun acc r => if p r then acc + 1 else acc) n = n + l.countP p := by
  induction l generalizing n with
  | nil => simp
  | cons x xs ih =>
    by_cases h : p x = true
    · simp [List.foldl_cons, h, ih, List.countP_cons]
      omega
    · simp only [List.foldl_cons, h, if_false, ih, List.countP_cons, h]
      simp

theorem foldl_add_map {α : Type} (f : α → ℚ) (l : List α) (q : ℚ) :
    l.foldl (fun acc r => acc + f r) q = q + (l.map f).sum := by
  induction l generalizing q with
  | nil => simp
  | cons x xs ih => simp [List.foldl_cons, ih, add_assoc]

/-! ### Stable sort lemmas -/

theorem insertStable_perm {α : Type} (keep : α → α → Bool) (x : α) (l : List α) :
    List.Perm (insertStable keep x l) (x :: l) := by
  induction l with
  | nil => exact List.Perm.refl _
  | cons y ys ih =>
    by_cases h : keep y x = true
    · simp only [insertStable, h, if_true]
      exact ((ih.cons y).trans (List.Perm.swap x y ys))
    · simp only [insertStable, h]
      simp

theorem stableSort_go_perm {α : Type} (keep : α → α → Bool) (l : List α) :
    ∀ acc : List α,
      List.Perm (l.foldl (fun acc x => insertStable keep x acc) acc) (l ++ acc) := by
  induction l with
  | nil => intro acc; simp
  | cons x xs ih =>
    intro acc
    have h1 : (x :: xs).foldl (fun acc x => insertStable keep x acc) acc
        = xs.foldl (fun acc x => insertStable keep x acc) (insertStable keep x acc) := by
      simp [List.foldl_cons]
    rw [h1]
    refine (ih _).trans ?_
    refine (List.Perm.append_left xs (insertStable_perm keep x acc)).trans ?_
    exact List.perm_middle

theorem stableSort_perm {α : Type} (keep : α → α → Bool) (l : List α) :
    List.Perm (stableSort keep l) l := by
  simpa using stableSort_go_perm keep l []

theorem mem_insertStable {α : Type} {keep : α → α → Bool} {x a : α} {l : List α} :
    a ∈ insertStable keep x l ↔ a = x ∨ a ∈ l := by
  have h := (insertStable_perm keep x l).mem_iff (a := a)
  simpa using h

/-- Inserting into a lex-sorted accumulator whose elements all precede the
newcomer in the underlying order `T` keeps the accumulator lex-sorted, where
the lex order compares keys first and falls back to `T` on key ties. -/
theorem insertStable_pairwise_lex {α : Type} {β : Type} [LinearOrder β]
    (keep : α → α → Bool) (k : α → β) (T : α → α → Prop)
    (hkeep : ∀ y x, keep y x = true ↔ k y ≤ k x)
    (x : α) (l : List α)
    (hl : l.Pairwise fun a b => k a < k b ∨ (k a = k b ∧ T a b))
    (hx : ∀ y ∈ l, T y x) :
    (insertStable keep x l).Pairwise fun a b => k a < k b ∨ (k a = k b ∧ T a b) := by
  induction l with
  | nil => simp [insertStable]
  | cons y ys ih =>
    rcases List.pairwise_cons.mp hl with ⟨hy, hys⟩
    by_cases h : keep y x = true
    · simp only [insertStable, h, if_true]
      refine List.pairwise_cons.mpr ⟨?_, ih hys fun z hz => hx z (List.mem_cons_of_mem y hz)⟩
      intro z hz
      rcases mem_insertStable.mp hz with rfl | hz'
      · rcases lt_or_eq_of_le ((hkeep y z).mp h) with hlt | heq
        · exact Or.inl hlt
        · exact Or.inr ⟨heq, hx y (List.mem_cons_self y ys)⟩
      · exact hy z hz'
    · simp only [insertStable, h, if_false, Bool.false_eq_true]
      have hxy : k x < k y := by
        have := (hkeep y x).not.mp (by simpa using h)
        exact lt_of_not_le this
      refine List.pairwise_cons.mpr ⟨?_, hl⟩
      intro z hz
      rcases List.mem_cons.mp hz with rfl | hz'
      · exact Or.inl hxy
      · refine Or.inl (lt_of_lt_of_le hxy ?_)
        rcases hy z hz' with hlt | ⟨heq, _⟩
        · exact le_of_lt hlt
        · exact le_of_eq heq

theorem stableSort_go_pairwise_lex {α : Type} {β : Type} [LinearOrder β]
    (keep : α → α → Bool) (k : α → β) (T : α → α → Prop)
    (hkeep : ∀ y x, keep y x = true ↔ k y ≤ k x) (l : List α) :
    ∀ acc : List α,
      (acc.Pairwise fun a b => k a < k b ∨ (k a = k b ∧ T a b)) →
      (∀ y ∈ acc, ∀ x ∈ l, T y x) → l.Pairwise T →
      (l.foldl (fun acc x => insertStable keep x acc) acc).Pairwise
        fun a b => k a < k b ∨ (k a = k b ∧ T a b) := by
  induction l with
  | nil => intro acc hacc _ _; simpa using hacc
  | cons x xs ih =>
    intro acc hacc hcross hpl
    rcases List.pairwise_cons.mp hpl with ⟨hx, hxs⟩
    simp only [List.foldl_cons]
    refine ih (insertStable keep x acc) ?_ ?_ hxs
    · exact insertStable_pairwise_lex keep k T hkeep x acc hacc
        fun y hy => hcross y hy x (List.mem_cons_self x xs)
    · intro y hy z hz
      rcases mem_insertStable.mp hy with rfl | hy'
      · exact hx z hz
      · exact hcross y hy' z (List.mem_cons_of_mem x hz)

/-- Stable sorting a list that is `Pairwise T` produces a list sorted in the
lexicographic order (key first, `T` breaking key ties): this packages the
ES2019 stability guarantee for a consistent comparator. -/
theorem stableSort_pairwise_lex {α : Type} {β : Type} [LinearOrder β]
    (keep : α → α → Bool) (k : α → β) (T : α → α → Prop)
    (hkeep : ∀ y x, keep y x = true ↔ k y ≤ k x)
    (l : List α) (hl : l.Pairwise T) :
    (stableSort keep l).Pairwise fun a b => k a < k b ∨ (k a = k b ∧ T a b) :=
  stableSort_go_pairwise_lex keep k T hkeep l [] (by simp) (by simp) hl

theorem insertStable_all_keep {α : Type} {keep : α → α → Bool} {x : α} {l : List α}
    (h : ∀ y ∈ l, keep y x = true) :
    insertStable keep x l = l ++ [x] := by
  induction l with
  | nil => simp [insertStable]
  | cons y ys ih =>
    simp only [insertStable, h y (List.mem_cons_self y ys), if_true, List.cons_append]
    exact congrArg (y :: ·) (ih fun z hz => h z (List.mem_cons_of_mem y hz))

theorem stableSort_go_eq_self {α : Type} (keep : α → α → Bool) (l : List α) :
    ∀ acc : List α, (∀ x ∈ l, ∀ y ∈ acc, keep y x = true) →
      (∀ y ∈ l, ∀ x ∈ l, keep y x = true) →
      l.foldl (fun acc x => insertStable keep x acc) acc = acc ++ l := by
  induction l with
  | nil => intro acc _ _; simp
  | cons x xs ih =>
    intro acc hacc hin
    simp only [List.foldl_cons]
    have hins : insertStable keep x acc = acc ++ [x] :=
      insertStable_all_keep fun y hy => hacc x (List.mem_cons_self x xs) y hy
    rw [hins, ih (acc ++ [x]) ?_ ?_]
    · simp
    · intro z hz y hy
      rcases List.mem_append.mp hy with hy' | hy'
      · exact hacc z (List.mem_cons_of_mem x hz) y hy'
      · rw [List.mem_singleton.mp hy']
        exact hin x (List.mem_cons_self x xs) z (List.mem_cons_of_mem x hz)
    · intro y hy z hz
      exact hin y (List.mem_cons_of_mem x hy) z (List.mem_cons_of_mem x hz)

/-- A stable sort in which the comparator keeps every pair in place (all keys
tie) returns the list unchanged. -/
theorem stableSort_eq_self {α : Type} {keep : α → α → Bool} {l : List α}
    (h : ∀ y ∈ l, ∀ x ∈ l, keep y x = true) :
    stableSort keep l = l := by
  simpa using stableSort_go_eq_self keep l [] (by simp) h

/-! ### Department statistics lemmas -/

/-- Number of rows grouped under department label `d`. -/
def deptCount (ds : List Rec) (d : String) : ℕ :=
  ds.countP fun r => decide (departmentLabel r = d)

/-- Number of attrited rows grouped under department label `d`. -/
def deptAttr (ds : List Rec) (d : String) : ℕ :=
  ds.countP fun r => decide (departmentLabel r = d) && isAttrited r

/-- Index of the first row carrying department label `d`. -/
def firstOccIdx (ds : List Rec) (d : String) : ℕ :=
  ds.findIdx fun r => decide (departmentLabel r = d)

theorem bump_keys (d : String) (a : Bool) (l : List (String × DeptStat)) :
    (bump d a l).map Prod.fst =
      if d ∈ l.map Prod.fst then l.map Prod.fst else l.map Prod.fst ++ [d] := by
  induction l with
  | nil => simp [bump]
  | cons e rest ih =>
    rcases e with ⟨k, st⟩
    by_cases h : k = d
    · subst h
      simp [bump]
    · have hne : ¬d = k := fun hdk => h hdk.symm
      by_cases hmem : d ∈ rest.map Prod.fst
      · simp [bump, h, ih, hmem, hne]
      · simp [bump, h, ih, hmem, hne]

theorem bump_keys_nodup {d : String} {a : Bool} {l : List (String × DeptStat)}
    (h : (l.map Prod.fst).Nodup) : ((bump d a l).map Prod.fst).Nodup := by
  rw [bump_keys]
  by_cases hmem : d ∈ l.map Prod.fst
  · simpa [hmem] using h
  · simp only [hmem, if_false]
    simp only [List.nodup_append, List.nodup_singleton]
    exact ⟨h, trivial, by simpa using fun hd => hmem hd⟩

theorem bump_lookup_self (d : String) (a : Bool) (l : List (String × DeptStat)) :
    (bump d a l).lookup d = some
      (match l.lookup d with
        | some st => ⟨st.count + 1, st.attr + if a then 1 else 0⟩
        | none => ⟨1, if a then 1 else 0⟩) := by
  induction l with
  | nil => simp [bump]
  | cons e rest ih =>
    rcases e with ⟨k, st⟩
    by_cases h : k = d
    · subst h
      simp [bump]
    · have hne : (d == k) = false := by
        simp [beq_iff_eq]
        exact fun hdk => h hdk.symm
      simp [bump, h, List.lookup_cons, hne, ih]

theorem bump_lookup_other {d d' : String} (a : Bool) (l : List (String × DeptStat))
    (h : d' ≠ d) : (bump d a l).lookup d' = l.lookup d' := by
  have hb : (d' == d) = false := by simpa using h
  induction l with
  | nil => simp [bump, List.lookup_cons, hb]
  | cons e rest ih =>
    rcases e with ⟨k, st⟩
    by_cases hk : k = d
    · subst hk
      simp [bump, List.lookup_cons, hb]
    · simp [bump, hk, List.lookup_cons, ih]

theorem departmentStats_append (ds : List Rec) (r : Rec) :
    departmentStats (ds ++ [r]) =
      bump (departmentLabel r) (isAttrited r) (departmentStats ds) := by
  simp [departmentStats, List.foldl_append]

/-- The accumulator object holds, for each department label seen so far, the
exact row count and attrited-row count. -/
theorem departmentStats_lookup (ds : List Rec) (d : String) :
    (departmentStats ds).lookup d =
      if 0 < deptCount ds d then some ⟨deptCount ds d, deptAttr ds d⟩ else none := by
  induction ds using List.reverseRecOn with
  | nil => simp [departmentStats, deptCount, deptAttr]
  | append_singleton ds r ih =>
    rw [departmentStats_append]
    by_cases h : departmentLabel r = d
    · rw [h, bump_lookup_self, ih]
      have hc : deptCount (ds ++ [r]) d = deptCount ds d + 1 := by
        simp [deptCount, List.countP_append, h]
      have ha : deptAttr (ds ++ [r]) d =
          deptAttr ds d + if isAttrited r then 1 else 0 := by
        simp only [deptAttr, List.countP_append, List.countP_singleton]
        by_cases hattr : isAttrited r = true <;> simp [h, hattr]
      by_cases hpos : 0 < deptCount ds d
      · simp only [hpos, if_true, hc, ha]
        simp
      · have hz : deptCount ds d = 0 := Nat.eq_zero_of_not_pos hpos
        simp only [hpos, if_false]
        have haz : deptAttr ds d = 0 := by
          have hle : deptAttr ds d ≤ deptCount ds d := by
            apply List.countP_mono_left
            intro r' hr' hb
            simp only [Bool.and_eq_true, decide_eq_true_eq] at hb
            simp [hb.1]
          omega
        simp [hc, ha, hz, haz]
    · rw [bump_lookup_other (isAttrited r) (departmentStats ds) fun hh => h hh.symm, ih]
      have hc : deptCount (ds ++ [r]) d = deptCount ds d := by
        simp [deptCount, List.countP_append, h]
      have ha : deptAttr (ds ++ [r]) d = deptAttr ds d := by
        simp only [deptAttr, List.countP_append, List.countP_singleton]
        simp [h]
      rw [hc, ha]

theorem departmentStats_keys_nodup (ds : List Rec) :
    ((departmentStats ds).map Prod.fst).Nodup := by
  induction ds using List.reverseRecOn with
  | nil => simp [departmentStats]
  | append_singleton ds r ih =>
    rw [departmentStats_append]
    exact bump_keys_nodup ih

theorem mem_departmentStats_keys (ds : List Rec) (d : String) :
    d ∈ (departmentStats ds).map Prod.fst ↔ 0 < deptCount ds d := by
  have h1 : d ∈ (departmentStats ds).map Prod.fst ↔
      ((departmentStats ds).lookup d).isSome = true := by
    rw [List.lookup_isSome_iff]
    simp only [List.mem_map, beq_iff_eq]
    constructor
    · rintro ⟨p, hp, hfst⟩
      exact ⟨p, hp, hfst.symm⟩
    · rintro ⟨p, hp, hfst⟩
      exact ⟨p, hp, hfst.symm⟩
  rw [h1, departmentStats_lookup]
  by_cases h : 0 < deptCount ds d <;> simp [h]

/-- The departments appear in the accumulator in order of first occurrence. -/
theorem departmentStats_keys_pairwise (ds : List Rec) :
    ((departmentStats ds).map Prod.fst).Pairwise
      fun d e => firstOccIdx ds d < firstOccIdx ds e := by
  induction ds using List.reverseRecOn with
  | nil => simp [departmentStats]
  | append_singleton ds r ih =>
    have hkeep : ∀ d ∈ (departmentStats ds).map Prod.fst,
        firstOccIdx (ds ++ [r]) d = firstOccIdx ds d ∧ firstOccIdx ds d < ds.length := by
      intro d hd
      have hpos := (mem_departmentStats_keys ds d).mp hd
      have hex : ∃ x ∈ ds, decide (departmentLabel x = d) = true := by
        simpa [deptCount] using List.countP_pos_iff.mp hpos
      have hlt : firstOccIdx ds d < ds.length := List.findIdx_lt_length_of_exists hex
      constructor
      · unfold firstOccIdx at hlt ⊢
        rw [List.findIdx_append, if_pos hlt]
      · exact hlt
    rw [departmentStats_append, bump_keys]
    by_cases hmem : departmentLabel r ∈ (departmentStats ds).map Prod.fst
    · simp only [hmem, if_true]
      refine ih.imp_of_mem ?_
      intro d e hd he hlt
      rw [(hkeep d hd).1, (hkeep e he).1]
      exact hlt
    · simp only [hmem, if_false]
      rw [List.pairwise_append]
      refine ⟨ih.imp_of_mem ?_, List.pairwise_singleton _ _, ?_⟩
      · intro d e hd he hlt
        rw [(hkeep d hd).1, (hkeep e he).1]
        exact hlt
      · intro d hd e he
        rw [List.mem_singleton] at he
        subst he
        have hnpos : ¬ 0 < deptCount ds (departmentLabel r) :=
          fun hpos => hmem ((mem_departmentStats_keys ds _).mpr hpos)
        have hnone : ∀ x ∈ ds, decide (departmentLabel x = departmentLabel r) = false := by
          intro x hx
          by_contra hb
          refine hnpos (List.countP_pos_iff.mpr ⟨x, hx, ?_⟩)
          simpa using hb
        have hfull : (ds.findIdx fun r' => decide (departmentLabel r' = departmentLabel r))
            = ds.length := List.findIdx_eq_length_of_false hnone
        have hnew : firstOccIdx (ds ++ [r]) (departmentLabel r) = ds.length := by
          unfold firstOccIdx
          rw [List.findIdx_append, if_neg (by omega)]
          simp [List.findIdx_cons]
        rw [(hkeep d hd).1, hnew]
        exact (hkeep d hd).2

/-! ### Rounding bounds -/

theorem round2_bounds {q : ℚ} (h0 : 0 ≤ q) (h1 : q ≤ 100) :
    0 ≤ round2 q ∧ round2 q ≤ 100 ∧
      ∃ k : ℤ, 0 ≤ k ∧ k ≤ 10000 ∧ round2 q = (k : ℚ) / 100 := by
  have hl : (0 : ℤ) ≤ round (q * 100) := by
    rw [round_eq]
    exact Int.le_floor.mpr (by push_cast; linarith)
  have hu : round (q * 100) ≤ 10000 := by
    have hlt : round (q * 100) < 10001 := by
      rw [round_eq]
      exact Int.floor_lt.mpr (by push_cast; linarith)
    omega
  have hlQ : (0 : ℚ) ≤ (round (q * 100) : ℚ) := by exact_mod_cast hl
  have huQ : (round (q * 100) : ℚ) ≤ 10000 := by exact_mod_cast hu
  unfold round2
  refine ⟨by positivity, ?_, round (q * 100), hl, hu, rfl⟩
  rw [div_le_iff₀ (by norm_num : (0 : ℚ) < 100)]
  linarith

/-! ### Claim C1 — request-level validation -/

/-- C1: the analyze operation reports a request-level validation failure
(returning an error and no statistics) exactly when the dataset is empty or
the index is outside `[0, |D|)`; for every non-empty dataset and in-range
index it returns the full analysis result (total, attrition rate, department
summaries, numeric columns, the target record and the neighbor list). -/
theorem analyze_validation (ds : List Rec) (index : ℤ) :
    ((∃ e, analyze ds index = .error e) ↔
      ds = [] ∨ index < 0 ∨ (ds.length : ℤ) ≤ index) ∧
    (ds ≠ [] → 0 ≤ index → index < (ds.length : ℤ) →
      analyze ds index = .ok ⟨ds.length, attritionRate ds, topDepartments ds,
        numericCols ds, ds.getD index.toNat [], similar ds index.toNat⟩) := by
  constructor
  · unfold analyze
    by_cases h1 : ds.length = 0
    · have hds : ds = [] := List.length_eq_zero.mp h1
      simp [h1, hds]
    · simp only [h1, if_false]
      by_cases h2 : index < 0 ∨ (ds.length : ℤ) ≤ index
      · simp only [h2, if_true]
        have hds : ds ≠ [] := fun h => h1 (by simp [h])
        simp [hds]
      · simp only [h2, if_false]
        have hds : ds ≠ [] := fun h => h1 (by simp [h])
        simp [hds]
  · intro hne h0 hlt
    have h1 : ds.length ≠ 0 := fun h => hne (List.length_eq_zero.mp h)
    have h2 : ¬(index < 0 ∨ (ds.length : ℤ) ≤ index) := by omega
    simp [analyze, h1, h2]

/-- C1 witness. -/
theorem analyze_validation_witness :
    analyze [[("Age", Value.num 30)]] 0 = .ok ⟨1, attritionRate [[("Age", Value.num 30)]],
      topDepartments [[("Age", Value.num 30)]], numericCols [[("Age", Value.num 30)]],
      [("Age", Value.num 30)], similar [[("Age", Value.num 30)]] 0⟩ :=
  (analyze_validation [[("Age", Value.num 30)]] 0).2 (by simp) (by norm_num) (by norm_num)

/-! ### Claim C4 — numeric-likeness test (corrected) -/

/-- Modelled from the spec (§4.1 step 3 and the glossary): numeric-like means
a finite number, or a string that is non-empty after trimming and parses
*fully to a finite number*.  This is the claim's predicate, for comparison
with the implementation's `isNumericLike`. -/
def specNumericLike : Option Value → Bool
  | some (.num _) => true
  | some (.str s) => jsTrim s ≠ "" && (jsParseNumber (jsTrim s)).isFinite
  | _ => false

/-- C4 counterexample: the implementation accepts the string `"Infinity"`,
whose full parse is the non-finite value `Infinity`, so `isNumericLike` is
not the spec's finite-parse predicate. -/
theorem isNumericLike_infinity_cex :
    isNumericLike (some (.str "Infinity")) = true ∧
      jsParseNumber "Infinity" = JSNum.inf ∧
      specNumericLike (some (.str "Infinity")) = false :=
  ⟨by decide, by decide, by decide⟩

/-- C4 (amended): the numeric-likeness test accepts `v` iff `v` is a number,
or a string that is non-empty after trimming and whose full parse is *not
`NaN`* — non-finite parses such as `"Infinity"` are accepted too; absent/null
values and all other types are never accepted. -/
theorem isNumericLike_amended (v : Option Value) :
    isNumericLike v = true ↔
      (∃ q, v = some (.num q)) ∨
      (∃ s, v = some (.str s) ∧ jsTrim s ≠ "" ∧ (jsParseNumber (jsTrim s)).isNaN = false) := by
  cases v with
  | none => simp [isNumericLike]
  | some val =>
    cases val with
    | vnull => simp [isNumericLike]
    | num q => simp [isNumericLike]
    | str s =>
      by_cases h : jsTrim s = ""
      · simp [isNumericLike, h]
      · simp [isNumericLike, h]
    | bool b => simp [isNumericLike]

/-! ### Claim C6 — coercion to a number -/

/-- C6: the coercion used in normalization returns a native number as-is, a
parseable string's (finite) parsed value, and `0` for unparsable strings,
`null`, absent values, booleans, and anything else. -/
theorem toNumber_spec (v : Option Value) :
    (∀ q, v = some (.num q) → toNumber v = q) ∧
    (∀ s q, v = some (.str s) → jsParseNumber s = .fin q → toNumber v = q) ∧
    (∀ s, v = some (.str s) → (jsParseNumber s).isFinite = false → toNumber v = 0) ∧
    ((v = none ∨ v = some .vnull ∨ ∃ b, v = some (.bool b)) → toNumber v = 0) := by
  refine ⟨?_, ?_, ?_, ?_⟩
  · rintro q rfl
    rfl
  · rintro s q rfl hp
    simp [toNumber, hp]
  · rintro s rfl hp
    cases hpe : jsParseNumber s with
    | fin q => rw [hpe] at hp; simp [JSNum.isFinite] at hp
    | inf => simp [toNumber, hpe]
    | negInf => simp [toNumber, hpe]
    | nan => simp [toNumber, hpe]
  · rintro (rfl | rfl | ⟨b, rfl⟩) <;> rfl

/-- C6 witness: a native number is passed through, the non-finite parse of
`"Infinity"` and a boolean are coerced to `0`. -/
theorem toNumber_spec_witness :
    toNumber (some (.num 5)) = 5 ∧
      toNumber (some (.str "Infinity")) = 0 ∧
      toNumber (some (.bool true)) = 0 :=
  ⟨(toNumber_spec (some (.num 5))).1 5 rfl,
    (toNumber_spec (some (.str "Infinity"))).2.2.1 "Infinity" rfl (by decide),
    (toNumber_spec (some (.bool true))).2.2.2 (Or.inr (Or.inr ⟨true, rfl⟩))⟩

/-! ### Claim C7 — overall attrition rate -/

/-- C7: the overall attrition rate is the share of records whose attrition
field, coerced to text and lower-cased, equals `"yes"`, `"1"` or `"true"`,
expressed as a percentage rounded to two decimal places, and it lies in
`[0, 100]`. -/
theorem attritionRate_spec (ds : List Rec) (hne : ds ≠ []) :
    attritionRate ds =
      round2 ((ds.countP isAttrited : ℚ) / (ds.length : ℚ) * 100) ∧
    0 ≤ attritionRate ds ∧ attritionRate ds ≤ 100 ∧
    ∃ k : ℤ, 0 ≤ k ∧ k ≤ 10000 ∧ attritionRate ds = (k : ℚ) / 100 := by
  have hcount : attritionCount ds = ds.countP isAttrited := by
    unfold attritionCount
    rw [foldl_add_count]
    simp
  have heq : attritionRate ds =
      round2 ((ds.countP isAttrited : ℚ) / (ds.length : ℚ) * 100) := by
    unfold attritionRate
    rw [hcount]
  have hlen : 0 < ds.length := List.length_pos.mpr hne
  have hlenQ : (0 : ℚ) < (ds.length : ℚ) := by exact_mod_cast hlen
  have hle : ds.countP isAttrited ≤ ds.length := List.countP_le_length _
  have hq0 : 0 ≤ (ds.countP isAttrited : ℚ) / (ds.length : ℚ) * 100 := by positivity
  have hq1 : (ds.countP isAttrited : ℚ) / (ds.length : ℚ) * 100 ≤ 100 := by
    have hdiv : (ds.countP isAttrited : ℚ) / (ds.length : ℚ) ≤ 1 := by
      rw [div_le_one hlenQ]
      exact_mod_cast hle
    nlinarith
  obtain ⟨hb0, hb1, hk⟩ := round2_bounds hq0 hq1
  rw [heq]
  exact ⟨rfl, hb0, hb1, hk⟩

/-- C7 witness. -/
theorem attritionRate_spec_witness :
    0 ≤ attritionRate [[("Attrition", Value.str "Yes")]] ∧
      attritionRate [[("Attrition", Value.str "Yes")]] ≤ 100 :=
  ⟨(attritionRate_spec [[("Attrition", Value.str "Yes")]] (by simp)).2.1,
    (attritionRate_spec [[("Attrition", Value.str "Yes")]] (by simp)).2.2.1⟩

/-! ### Claim C3 — numeric column classification -/

/-- C3: a column is selected iff it is a key of the first record, its
lower-cased name is not in the fixed exclusion set, and the share of records
with a numeric-like value in it is at least 0.70 (inclusive); each selected
name appears once, in the first record's key order (a column absent from the
first record is never selected). -/
theorem numericCols_spec (ds : List Rec) (_hne : ds ≠ [])
    (hk : (recKeys (ds.headD [])).Nodup) :
    (∀ c, c ∈ numericCols ds ↔
      c ∈ recKeys (ds.headD []) ∧ jsToLower c ∉ ignoreNumericColumns ∧
        (7 : ℚ) / 10 ≤
          ((ds.countP fun r => isNumericLike (getField r c)) : ℚ) / (ds.length : ℚ)) ∧
    (numericCols ds).Nodup ∧
    (numericCols ds).Sublist (recKeys (ds.headD [])) := by
  have hcount : ∀ c, numericCount ds c = ds.countP fun r => isNumericLike (getField r c) := by
    intro c
    unfold numericCount
    rw [foldl_add_count]
    simp
  refine ⟨?_, ?_, ?_⟩
  · intro c
    unfold numericCols candidateColumns
    rw [List.mem_filter]
    rw [hcount c]
    simp [Bool.and_eq_true, decide_eq_true_eq]
  · exact List.Nodup.filter _ hk
  · exact List.filter_sublist _

/-- C3 witness: with a first record carrying an identifier column and a fully
numeric string column, only the latter is selected. -/
theorem numericCols_spec_witness :
    "Age" ∈ numericCols [[("EmployeeNumber", Value.num 7), ("Age", Value.str "35")]] :=
  ((numericCols_spec [[("EmployeeNumber", Value.num 7), ("Age", Value.str "35")]]
    (by simp) (by decide)).1 "Age").mpr
    ⟨by decide, by decide, by
      have h : (([[("EmployeeNumber", Value.num 7), ("Age", Value.str "35")]] :
          List Rec).countP fun r => isNumericLike (getField r "Age")) = 1 := by decide
      rw [h]
      norm_num⟩

/-! ### Entries enumeration lemmas -/

theorem jsEntries_perm {β : Type} (l : List (String × β)) :
    List.Perm (jsEntries l) l := by
  unfold jsEntries
  refine (List.Perm.append (stableSort_perm _ _) (List.Perm.refl _)).trans ?_
  exact List.filter_append_perm _ l

/-- The ECMAScript enumeration order on two distinct department labels of a
dataset: an integer-index label precedes every other label, two integer-index
labels compare by numeric value, and two other labels by first occurrence.
(The `m = n` sub-case never holds of two distinct keys: an array-index string
is canonical, so its value determines it.) -/
def enumBefore (ds : List Rec) (a b : String) : Prop :=
  match arrayIndexVal a, arrayIndexVal b with
  | some m, some n => m < n ∨ (m = n ∧ firstOccIdx ds a < firstOccIdx ds b)
  | some _, none => True
  | none, some _ => False
  | none, none => firstOccIdx ds a < firstOccIdx ds b

/-- The department labels enumerate in the ECMAScript order: integer-index
labels first in ascending numeric order, then the rest by first occurrence. -/
theorem jsEntries_keys_pairwise (ds : List Rec) :
    ((jsEntries (departmentStats ds)).map Prod.fst).Pairwise
      fun a b => enumBefore ds a b := by
  have hfp : (departmentStats ds).Pairwise
      (fun e f => firstOccIdx ds e.1 < firstOccIdx ds f.1) := by
    have h := departmentStats_keys_pairwise ds
    rwa [List.pairwise_map] at h
  unfold jsEntries
  rw [List.map_append, List.pairwise_append]
  refine ⟨?_, ?_, ?_⟩
  · have hfil : ((departmentStats ds).filter fun e => (arrayIndexVal e.1).isSome).Pairwise
        (fun e f => firstOccIdx ds e.1 < firstOccIdx ds f.1) := hfp.filter _
    have hsorted := stableSort_pairwise_lex
      (fun y x : String × DeptStat =>
        decide ((arrayIndexVal y.1).getD 0 ≤ (arrayIndexVal x.1).getD 0))
      (fun e : String × DeptStat => (arrayIndexVal e.1).getD 0)
      (fun e f : String × DeptStat => firstOccIdx ds e.1 < firstOccIdx ds f.1)
      (by intro y x; simp) _ hfil
    rw [List.pairwise_map]
    refine hsorted.imp_of_mem ?_
    intro a b ha hb hrel
    dsimp only at hrel
    have ha' : (arrayIndexVal a.1).isSome = true := by
      have hmem := (stableSort_perm _ _).mem_iff.mp ha
      simpa using List.of_mem_filter hmem
    have hb' : (arrayIndexVal b.1).isSome = true := by
      have hmem := (stableSort_perm _ _).mem_iff.mp hb
      simpa using List.of_mem_filter hmem
    obtain ⟨m, hm⟩ := Option.isSome_iff_exists.mp ha'
    obtain ⟨n, hn⟩ := Option.isSome_iff_exists.mp hb'
    rw [hm, hn] at hrel
    simp only [Option.getD_some] at hrel
    simp only [enumBefore, hm, hn]
    exact hrel
  · rw [List.pairwise_map]
    refine (hfp.filter _).imp_of_mem ?_
    intro a b ha hb hrel
    have ha' : arrayIndexVal a.1 = none := by
      have := List.of_mem_filter ha
      simpa [Option.isNone_iff_eq_none] using this
    have hb' : arrayIndexVal b.1 = none := by
      have := List.of_mem_filter hb
      simpa [Option.isNone_iff_eq_none] using this
    simp only [enumBefore, ha', hb']
    exact hrel
  · intro x hx y hy
    obtain ⟨a, ha, rfl⟩ := List.mem_map.mp hx
    obtain ⟨b, hb, rfl⟩ := List.mem_map.mp hy
    have ha' : (arrayIndexVal a.1).isSome = true := by
      have hmem := (stableSort_perm _ _).mem_iff.mp ha
      simpa using List.of_mem_filter hmem
    have hb' : arrayIndexVal b.1 = none := by
      have := List.of_mem_filter hb
      simpa [Option.isNone_iff_eq_none] using this
    obtain ⟨m, hm⟩ := Option.isSome_iff_exists.mp ha'
    simp only [enumBefore, hm, hb']

/-! ### Claim C8 — department summaries -/

theorem lookup_of_mem_nodupKeys {β : Type} {l : List (String × β)} {d : String} {b : β}
    (hnd : (l.map Prod.fst).Nodup) (hmem : (d, b) ∈ l) : l.lookup d = some b := by
  induction l with
  | nil => cases hmem
  | cons e rest ih =>
    rcases e with ⟨k, b'⟩
    rcases List.mem_cons.mp hmem with heq | hmem'
    · rw [Prod.mk.injEq] at heq
      rcases heq with ⟨rfl, rfl⟩
      simp
    · have hk : ¬d = k := by
        intro h
        subst h
        have : d ∈ rest.map Prod.fst := List.mem_map.mpr ⟨(d, b), hmem', rfl⟩
        exact (List.nodup_cons.mp (by simpa using hnd)).1 this
      have hb : (d == k) = false := by simpa using hk
      rw [List.lookup_cons]
      simp only [hb]
      exact ih (List.nodup_cons.mp (by simpa using hnd)).2 hmem'

/-- Every summary entry carries its department's exact record count and its
rounded attrition percentage. -/
theorem deptSummaries_mem (ds : List Rec) {e : DeptSummary}
    (he : e ∈ deptSummaries ds) :
    0 < deptCount ds e.department ∧
    e.count = deptCount ds e.department ∧
    e.attritionRate =
      round2 ((deptAttr ds e.department : ℚ) / (deptCount ds e.department : ℚ) * 100) := by
  obtain ⟨⟨d, st⟩, hmem0, rfl⟩ := List.mem_map.mp he
  have hmem : (d, st) ∈ departmentStats ds :=
    (jsEntries_perm (departmentStats ds)).mem_iff.mp hmem0
  have hlk : (departmentStats ds).lookup d = some st :=
    lookup_of_mem_nodupKeys (departmentStats_keys_nodup ds) hmem
  rw [departmentStats_lookup] at hlk
  by_cases hpos : 0 < deptCount ds d
  · rw [if_pos hpos] at hlk
    have hst : st = ⟨deptCount ds d, deptAttr ds d⟩ := (Option.some.inj hlk).symm
    subst hst
    exact ⟨hpos, rfl, rfl⟩
  · rw [if_neg hpos] at hlk
    cases hlk

theorem deptAttr_le_deptCount (ds : List Rec) (d : String) :
    deptAttr ds d ≤ deptCount ds d := by
  apply List.countP_mono_left
  intro r _ hb
  simp only [Bool.and_eq_true] at hb
  exact hb.1

/-- C8 (amended): at most 5 department summaries; one per distinct
encountered label (missing department grouped under `"Unknown Department"` by
`departmentLabel`); each entry carries its department's record count and its
attrition rate, a two-decimal percentage in `[0, 100]`; and the list is
sorted by strictly descending attrition rate except that equal rates appear
in the object's property enumeration order (`enumBefore`): integer-index
labels first in ascending numeric order, then the remaining labels in
first-occurrence order. -/
theorem topDepartments_spec (ds : List Rec) (_hne : ds ≠ []) :
    (topDepartments ds).length ≤ 5 ∧
    (∀ e ∈ topDepartments ds,
      0 < deptCount ds e.department ∧
      e.count = deptCount ds e.department ∧
      e.attritionRate =
        round2 ((deptAttr ds e.department : ℚ) / (deptCount ds e.department : ℚ) * 100) ∧
      0 ≤ e.attritionRate ∧ e.attritionRate ≤ 100) ∧
    ((deptSummaries ds).map DeptSummary.department).Nodup ∧
    (∀ d, (∃ e ∈ deptSummaries ds, e.department = d) ↔ 0 < deptCount ds d) ∧
    ((topDepartments ds).map DeptSummary.department).Nodup ∧
    (topDepartments ds).Pairwise
      (fun a b => b.attritionRate < a.attritionRate ∨
        (a.attritionRate = b.attritionRate ∧
          enumBefore ds a.department b.department)) := by
  have hperm : List.Perm
      (stableSort (fun y x => decide (x.attritionRate ≤ y.attritionRate)) (deptSummaries ds))
      (deptSummaries ds) := stableSort_perm _ _
  have hlabels : (deptSummaries ds).map DeptSummary.department =
      (jsEntries (departmentStats ds)).map Prod.fst := by
    unfold deptSummaries
    rw [List.map_map]
    rfl
  have hkeysperm : List.Perm ((jsEntries (departmentStats ds)).map Prod.fst)
      ((departmentStats ds).map Prod.fst) :=
    (jsEntries_perm (departmentStats ds)).map Prod.fst
  have hnodup : ((deptSummaries ds).map DeptSummary.department).Nodup := by
    rw [hlabels]
    exact hkeysperm.nodup_iff.mpr (departmentStats_keys_nodup ds)
  have hmem_top : ∀ e ∈ topDepartments ds, e ∈ deptSummaries ds := by
    intro e he
    exact (hperm.mem_iff).mp (List.mem_of_mem_take he)
  refine ⟨?_, ?_, hnodup, ?_, ?_, ?_⟩
  · exact List.length_take_le 5 _
  · intro e he
    obtain ⟨hpos, hcnt, hrate⟩ := deptSummaries_mem ds (hmem_top e he)
    have hposQ : (0 : ℚ) < (deptCount ds e.department : ℚ) := by exact_mod_cast hpos
    have hleQ : (deptAttr ds e.department : ℚ) ≤ (deptCount ds e.department : ℚ) := by
      exact_mod_cast deptAttr_le_deptCount ds e.department
    have h0 : 0 ≤ (deptAttr ds e.department : ℚ) / (deptCount ds e.department : ℚ) * 100 := by
      positivity
    have h1 : (deptAttr ds e.department : ℚ) / (deptCount ds e.department : ℚ) * 100 ≤ 100 := by
      have hdiv : (deptAttr ds e.department : ℚ) / (deptCount ds e.department : ℚ) ≤ 1 :=
        (div_le_one hposQ).mpr hleQ
      nlinarith
    obtain ⟨hb0, hb1, -⟩ := round2_bounds h0 h1
    rw [← hrate] at hb0 hb1
    exact ⟨hpos, hcnt, hrate, hb0, hb1⟩
  · intro d
    constructor
    · rintro ⟨e, he, rfl⟩
      exact (deptSummaries_mem ds he).1
    · intro hpos
      have hd : d ∈ (jsEntries (departmentStats ds)).map Prod.fst :=
        hkeysperm.mem_iff.mpr ((mem_departmentStats_keys ds d).mpr hpos)
      rw [← hlabels] at hd
      obtain ⟨e, he, hde⟩ := List.mem_map.mp hd
      exact ⟨e, he, hde⟩
  · have h1 : ((topDepartments ds).map DeptSummary.department).Sublist
        ((stableSort (fun y x => decide (x.attritionRate ≤ y.attritionRate))
          (deptSummaries ds)).map DeptSummary.department) :=
      List.Sublist.map _ (List.take_sublist _ _)
    have h2 : ((stableSort (fun y x => decide (x.attritionRate ≤ y.attritionRate))
        (deptSummaries ds)).map DeptSummary.department).Nodup :=
      (hperm.map DeptSummary.department).nodup_iff.mpr hnodup
    exact h2.sublist h1
  · have hT : (deptSummaries ds).Pairwise
        (fun a b => enumBefore ds a.department b.department) := by
      have h1 := jsEntries_keys_pairwise ds
      rw [List.pairwise_map] at h1
      unfold deptSummaries
      rw [List.pairwise_map]
      exact h1
    have hkeep : ∀ y x : DeptSummary,
        (decide (x.attritionRate ≤ y.attritionRate)) = true ↔
          OrderDual.toDual y.attritionRate ≤ OrderDual.toDual x.attritionRate := by
      intro y x
      simp
    have hsorted := stableSort_pairwise_lex
      (fun y x => decide (x.attritionRate ≤ y.attritionRate))
      (fun e => OrderDual.toDual e.attritionRate)
      (fun a b => enumBefore ds a.department b.department)
      hkeep (deptSummaries ds) hT
    have hconv : (stableSort (fun y x => decide (x.attritionRate ≤ y.attritionRate))
        (deptSummaries ds)).Pairwise
          (fun a b => b.attritionRate < a.attritionRate ∨
            (a.attritionRate = b.attritionRate ∧
              enumBefore ds a.department b.department)) := by
      refine hsorted.imp ?_
      intro a b h
      rcases h with hlt | ⟨heq, ht⟩
      · exact Or.inl (by simpa using hlt)
      · refine Or.inr ⟨?_, ht⟩
        simpa using heq
    exact hconv.sublist (List.take_sublist _ _)

/-- The C8 counterexample dataset: department `"Sales"` occurs first, then the
integer-like department label `"42"`; both have attrition rate 0. -/
def tieCexDataset : List Rec :=
  [[("Department", Value.str "Sales"), ("Attrition", Value.str "No")],
   [("Department", Value.str "42"), ("Attrition", Value.str "No")]]

/-- C8 counterexample: `Object.entries` enumerates the integer-index key
`"42"` before the insertion-earlier `"Sales"`, so with both rates tied at 0
the summaries come out `["42", "Sales"]` — the first-occurrence tie-break the
claim states (Sales first) fails. -/
theorem topDepartments_first_occurrence_cex :
    (topDepartments tieCexDataset).map DeptSummary.department = ["42", "Sales"] ∧
    firstOccIdx tieCexDataset "Sales" < firstOccIdx tieCexDataset "42" ∧
    ¬ (topDepartments tieCexDataset).Pairwise
      (fun a b => b.attritionRate < a.attritionRate ∨
        (a.attritionRate = b.attritionRate ∧
          firstOccIdx tieCexDataset a.department < firstOccIdx tieCexDataset b.department)) := by
  have hentries : jsEntries (departmentStats tieCexDataset) =
      [("42", ⟨1, 0⟩), ("Sales", ⟨1, 0⟩)] := by decide
  have hsumm : deptSummaries tieCexDataset =
      [⟨"42", 1, round2 (((0 : ℕ) : ℚ) / ((1 : ℕ) : ℚ) * 100)⟩,
       ⟨"Sales", 1, round2 (((0 : ℕ) : ℚ) / ((1 : ℕ) : ℚ) * 100)⟩] := by
    unfold deptSummaries
    rw [hentries]
    rfl
  have hsort : stableSort (fun y x : DeptSummary => decide (x.attritionRate ≤ y.attritionRate))
      (deptSummaries tieCexDataset) = deptSummaries tieCexDataset := by
    apply stableSort_eq_self
    intro y hy x hx
    rw [hsumm] at hy hx
    simp only [List.mem_cons, List.not_mem_nil, or_false] at hy hx
    rcases hy with rfl | rfl <;> rcases hx with rfl | rfl <;> simp
  have htop : topDepartments tieCexDataset =
      [⟨"42", 1, round2 (((0 : ℕ) : ℚ) / ((1 : ℕ) : ℚ) * 100)⟩,
       ⟨"Sales", 1, round2 (((0 : ℕ) : ℚ) / ((1 : ℕ) : ℚ) * 100)⟩] := by
    unfold topDepartments
    rw [hsort, hsumm]
    rfl
  have h42 : firstOccIdx tieCexDataset "42" = 1 := by decide
  have hS : firstOccIdx tieCexDataset "Sales" = 0 := by decide
  refine ⟨by rw [htop]; rfl, by rw [h42, hS]; omega, ?_⟩
  intro h
  rw [htop] at h
  have hrel := (List.pairwise_cons.mp h).1 _ (List.mem_cons_self _ _)
  dsimp only at hrel
  rcases hrel with hlt | ⟨-, hlt⟩
  · exact lt_irrefl _ hlt
  · rw [h42, hS] at hlt
    omega

/-- C8 witness (the spec's Scenario A dataset): Sales (attrition 50 %) ranks
above R&D (0 %). -/
theorem topDepartments_spec_witness :
    (topDepartments [
      [("Department", Value.str "Sales"), ("Attrition", Value.str "Yes")],
      [("Department", Value.str "Sales"), ("Attrition", Value.str "No")],
      [("Department", Value.str "R&D"), ("Attrition", Value.str "No")]]).length ≤ 5 :=
  (topDepartments_spec _ (by simp)).1

/-! ### Claim C2 — neighbor list -/

theorem countP_ne_range {n i : ℕ} (hi : i < n) :
    (List.range n).countP (fun r => decide (r ≠ i)) = n - 1 := by
  induction n with
  | zero => omega
  | succ m ih =>
    rw [List.range_succ, List.countP_append, List.countP_singleton]
    by_cases h : i = m
    · subst h
      have hall : (List.range i).countP (fun r => decide (r ≠ i)) = (List.range i).length := by
        rw [List.countP_eq_length]
        intro a ha
        have := List.mem_range.mp ha
        simp
        omega
      simp only [hall, List.length_range]
      simp
    · have him : i < m := by omega
      rw [ih him]
      have : (decide (m ≠ i)) = true := by simp; omega
      rw [this]
      simp
      omega

theorem sims_pairwise_idx (ds : List Rec) (t : ℕ) :
    (sims ds t).Pairwise fun a b => a.idx < b.idx := by
  unfold sims
  rw [List.pairwise_map]
  exact List.pairwise_lt_range ds.length

/-- C2: the neighbor list has length `min 10 (|D| − 1)`, never contains the
target index, and is sorted by ascending distance with distance ties broken
by ascending positional index.  `Sim.dist2` is the square of the reported
Euclidean distance; `√` is strictly monotone on nonnegatives, so the
ordering by `dist2` coincides with the ordering by distance. -/
theorem similar_spec (ds : List Rec) (i : ℕ) (hi : i < ds.length) :
    (similar ds i).length = min 10 (ds.length - 1) ∧
    (∀ s ∈ similar ds i, s.idx ≠ i) ∧
    (similar ds i).Pairwise
      (fun a b => a.dist2 < b.dist2 ∨ (a.dist2 = b.dist2 ∧ a.idx < b.idx)) := by
  have hperm : List.Perm (sortedSims ds i) (sims ds i) := stableSort_perm _ _
  refine ⟨?_, ?_, ?_⟩
  · unfold similar
    rw [List.length_take, ← List.countP_eq_length_filter, hperm.countP_eq]
    unfold sims
    rw [List.countP_map]
    have hc : ((List.range ds.length).countP
        ((fun e : Sim => decide (e.idx ≠ i)) ∘ fun r => (⟨r, dist2 ds i r, ds.getD r []⟩ : Sim)))
        = (List.range ds.length).countP (fun r => decide (r ≠ i)) := rfl
    rw [hc, countP_ne_range hi]
  · intro s hs
    have hs' : s ∈ (sortedSims ds i).filter fun e => decide (e.idx ≠ i) :=
      List.mem_of_mem_take hs
    have := List.of_mem_filter hs'
    simpa using this
  · have hsorted := stableSort_pairwise_lex
      (fun y x : Sim => decide (y.dist2 ≤ x.dist2))
      (fun e : Sim => e.dist2)
      (fun a b : Sim => a.idx < b.idx)
      (by intro y x; simp) (sims ds i) (sims_pairwise_idx ds i)
    have hfil : ((sortedSims ds i).filter fun e => decide (e.idx ≠ i)).Pairwise
        (fun a b => a.dist2 < b.dist2 ∨ (a.dist2 = b.dist2 ∧ a.idx < b.idx)) :=
      List.Pairwise.filter _ hsorted
    exact hfil.sublist (List.take_sublist _ _)

/-- C2 witness (Scenario A shape): three records, target 0, two neighbors. -/
theorem similar_spec_witness :
    (similar [
      [("Age", Value.num 30)], [("Age", Value.num 40)], [("Age", Value.num 35)]] 0).length
      = min 10 2 :=
  (similar_spec [
    [("Age", Value.num 30)], [("Age", Value.num 40)], [("Age", Value.num 35)]] 0
    (by norm_num)).1

/-! ### Claim C5 — z-score normalization -/

/-- The 70 % threshold `0.7 ≤ count/total` over `ℚ` agrees with the integer
comparison `7·total ≤ 10·count` whenever the dataset is non-empty; for the
empty dataset there are no candidate columns, so the two filters agree on
every dataset.  (This reformulation lets concrete instances evaluate by
`decide`, which cannot normalize `ℚ` divisions.) -/
theorem numericCols_eval (ds : List Rec) :
    numericCols ds = (candidateColumns ds).filter fun c =>
      !ignoreNumericColumns.contains (jsToLower c) &&
        decide (7 * ds.length ≤ 10 * numericCount ds c) := by
  by_cases hds : ds = []
  · subst hds
    simp [numericCols, candidateColumns, recKeys]
  · unfold numericCols
    apply List.filter_congr
    intro c _
    have hlen : 0 < ds.length := List.length_pos.mpr hds
    have hlenQ : (0 : ℚ) < (ds.length : ℚ) := by exact_mod_cast hlen
    congr 1
    rw [decide_eq_decide]
    rw [div_le_div_iff₀ (by norm_num) hlenQ]
    constructor
    · intro h
      have h' : (7 : ℚ) * (ds.length : ℚ) ≤ (numericCount ds c : ℚ) * 10 := h
      have : (7 * ds.length : ℕ) ≤ (numericCount ds c * 10 : ℕ) := by exact_mod_cast h'
      omega
    · intro h
      have h' : (7 * ds.length : ℕ) ≤ (numericCount ds c * 10 : ℕ) := by omega
      exact_mod_cast h'

theorem numericMatrix_length (ds : List Rec) :
    (numericMatrix ds).length = ds.length :=
  List.length_map _ _

/-- C5: normalization divides the per-record totals by the record count (mean
over all records, population variance), substitutes an effective divisor of 1
when the variance is zero, and therefore a column whose coerced value is the
same `c` in every record has mean `c`, variance `0`, normalized value `0` for
every record, and contributes `0` to every pairwise squared distance. -/
theorem normalization_spec (ds : List Rec) (j : ℕ) (c : ℚ) (hne : ds ≠ [])
    (hj : j < (numericCols ds).length)
    (hconst : ∀ r ∈ ds, toNumber (getField r ((numericCols ds).get ⟨j, hj⟩)) = c) :
    colMean ds j = ((numericMatrix ds).map fun row => row.getD j 0).sum / (ds.length : ℚ) ∧
    colVariance ds j =
      ((numericMatrix ds).map fun row => (row.getD j 0 - colMean ds j) ^ 2).sum /
        (ds.length : ℚ) ∧
    (∀ k, colVariance ds k ≤ 0 → effVar ds k = 1) ∧
    colMean ds j = c ∧ colVariance ds j = 0 ∧ effVar ds j = 1 ∧
    (∀ r, r < ds.length → normNumerator ds r j = 0) ∧
    (∀ r, r < ds.length → ∀ t, t < ds.length → dist2Term ds t r j = 0) := by
  have hmean : colMean ds j =
      ((numericMatrix ds).map fun row => row.getD j 0).sum / (ds.length : ℚ) := by
    unfold colMean
    rw [foldl_add_map, numericMatrix_length]
    simp
  have hvar : colVariance ds j =
      ((numericMatrix ds).map fun row => (row.getD j 0 - colMean ds j) ^ 2).sum /
        (ds.length : ℚ) := by
    unfold colVariance
    rw [foldl_add_map, numericMatrix_length]
    simp
  have heff : ∀ k, colVariance ds k ≤ 0 → effVar ds k = 1 := by
    intro k hk
    unfold effVar
    rw [if_neg (not_lt.mpr hk)]
  have hlen : ds.length ≠ 0 := fun h => hne (List.length_eq_zero.mp h)
  have hlenQ : (ds.length : ℚ) ≠ 0 := by exact_mod_cast hlen
  have hentry : ∀ row ∈ numericMatrix ds, row.getD j 0 = c := by
    intro row hrow
    obtain ⟨r, hr, rfl⟩ := List.mem_map.mp hrow
    unfold numericRow
    rw [List.getD_eq_getElem?_getD, List.getElem?_map, List.getElem?_eq_getElem hj]
    simpa using hconst r hr
  have hsum : ((numericMatrix ds).map fun row => row.getD j 0).sum =
      (ds.length : ℚ) * c := by
    have hrep : (numericMatrix ds).map (fun row => row.getD j 0) =
        List.replicate ds.length c := by
      have h1 := List.eq_replicate_of_mem
        (l := (numericMatrix ds).map fun row => row.getD j 0) (a := c) ?_
      · rwa [List.length_map, numericMatrix_length] at h1
      · intro b hb
        obtain ⟨row, hrow, rfl⟩ := List.mem_map.mp hb
        exact hentry row hrow
    rw [hrep, List.sum_replicate, nsmul_eq_mul]
  have hmc : colMean ds j = c := by
    rw [hmean, hsum]
    field_simp
  have hvc : colVariance ds j = 0 := by
    rw [hvar]
    have hrep : (numericMatrix ds).map (fun row => (row.getD j 0 - colMean ds j) ^ 2) =
        List.replicate ds.length 0 := by
      have h1 := List.eq_replicate_of_mem
        (l := (numericMatrix ds).map fun row => (row.getD j 0 - colMean ds j) ^ 2)
        (a := (0 : ℚ)) ?_
      · rwa [List.length_map, numericMatrix_length] at h1
      · intro b hb
        obtain ⟨row, hrow, rfl⟩ := List.mem_map.mp hb
        rw [hentry row hrow, hmc]
        ring
    rw [hrep, List.sum_replicate]
    simp
  have heffj : effVar ds j = 1 := heff j (le_of_eq hvc)
  have hraw : ∀ r, r < ds.length → rawAt ds r j = c := by
    intro r hr
    have hr' : r < (numericMatrix ds).length := by rwa [numericMatrix_length]
    unfold rawAt
    rw [List.getD_eq_getElem?_getD (numericMatrix ds) r, List.getElem?_eq_getElem hr']
    have hmem : (numericMatrix ds)[r] ∈ numericMatrix ds := List.getElem_mem hr'
    exact hentry _ hmem
  refine ⟨hmean, hvar, heff, hmc, hvc, heffj, ?_, ?_⟩
  · intro r hr
    unfold normNumerator
    rw [hraw r hr, hmc]
    ring
  · intro r hr t ht
    unfold dist2Term
    rw [hraw r hr, hraw t ht, heffj]
    ring

/-- C5 witness: a two-record dataset whose single numeric column is the
constant 5. -/
theorem normalization_spec_witness :
    effVar [[("Salary", Value.num 5)], [("Salary", Value.num 5)]] 0 = 1 := by
  have hcols : numericCols [[("Salary", Value.num 5)], [("Salary", Value.num 5)]]
      = ["Salary"] := by
    rw [numericCols_eval]
    decide
  have hj : (0 : ℕ) < (numericCols [[("Salary", Value.num 5)], [("Salary", Value.num 5)]]).length := by
    rw [hcols]
    norm_num
  exact (normalization_spec [[("Salary", Value.num 5)], [("Salary", Value.num 5)]] 0 5
    (by simp) hj (by rw [List.get_eq_getElem]; simp [hcols]; decide)).2.2.2.2.2.1

/-! ### Claim C9 — degenerate data -/

/-- C9: when no column qualifies, the analysis still succeeds: every feature
vector is zero-length, every computed squared distance is `0`, and the
neighbor list is the non-target records in ascending index order, truncated
to 10.  (The engine is modelled by total functions; the degenerate fallbacks
are the values proved here, and no case is an error.) -/
theorem degenerate_no_numeric_cols (ds : List Rec) (i : ℕ) (hi : i < ds.length)
    (hcols : numericCols ds = []) :
    (∃ res, analyze ds (i : ℤ) = .ok res) ∧
    (∀ r ∈ ds, numericRow ds r = []) ∧
    (∀ t r : ℕ, dist2 ds t r = 0) ∧
    (∀ s ∈ similar ds i, s.dist2 = 0) ∧
    (similar ds i).map Sim.idx =
      ((List.range ds.length).filter fun r => decide (r ≠ i)).take 10 := by
  have hd2 : ∀ t r : ℕ, dist2 ds t r = 0 := by
    intro t r
    unfold dist2
    rw [hcols]
    rfl
  have hrow : ∀ r ∈ ds, numericRow ds r = [] := by
    intro r _
    unfold numericRow
    rw [hcols]
    rfl
  have hsimszero : ∀ s ∈ sims ds i, s.dist2 = 0 := by
    intro s hs
    obtain ⟨r, _, rfl⟩ := List.mem_map.mp hs
    exact hd2 i r
  have hsort : sortedSims ds i = sims ds i := by
    unfold sortedSims
    apply stableSort_eq_self
    intro y hy x hx
    rw [hsimszero y hy, hsimszero x hx]
    simp
  have hok : ∃ res, analyze ds (i : ℤ) = .ok res := by
    have h1 : ¬ds.length = 0 := by omega
    have h2 : ¬((i : ℤ) < 0 ∨ (ds.length : ℤ) ≤ (i : ℤ)) := by
      push_neg
      constructor
      · exact_mod_cast Nat.zero_le i
      · exact_mod_cast hi
    refine ⟨⟨ds.length, attritionRate ds, topDepartments ds, numericCols ds,
      ds.getD ((i : ℤ)).toNat [], similar ds ((i : ℤ)).toNat⟩, ?_⟩
    unfold analyze
    rw [if_neg h1, if_neg h2]
  refine ⟨hok, hrow, hd2, ?_, ?_⟩
  · intro s hs
    have hs' : s ∈ (sortedSims ds i).filter fun e => decide (e.idx ≠ i) :=
      List.mem_of_mem_take hs
    have hmem : s ∈ sims ds i := by
      rw [hsort] at hs'
      exact List.mem_of_mem_filter hs'
    exact hsimszero s hmem
  · unfold similar
    rw [hsort]
    unfold sims
    rw [List.filter_map, List.map_take, List.map_map]
    have hfun : ((fun e : Sim => decide (e.idx ≠ i)) ∘
        fun r => (⟨r, dist2 ds i r, ds.getD r []⟩ : Sim)) = fun r => decide (r ≠ i) := rfl
    rw [hfun]
    have hid : (Sim.idx ∘ fun r => (⟨r, dist2 ds i r, ds.getD r []⟩ : Sim)) = id := rfl
    rw [hid, List.map_id]

/-- C9 witness: two non-numeric records, target 0, neighbor list `[1]`. -/
theorem degenerate_no_numeric_cols_witness :
    (similar [[("Department", Value.str "Sales")], [("Department", Value.str "R&D")]] 0).map
      Sim.idx = ((List.range 2).filter fun r => decide (r ≠ 0)).take 10 :=
  (degenerate_no_numeric_cols
    [[("Department", Value.str "Sales")], [("Department", Value.str "R&D")]] 0
    (by norm_num)
    (by rw [numericCols_eval]; decide)).2.2.2.2

/-! ### Claim C10 — department label fallback -/

/-- C10: only a missing or `null` department maps to `"Unknown Department"`;
any other value — the empty string, the number `0`, `false` — is grouped under
its text coercion, so an empty-string department keeps the label `""`. -/
theorem departmentLabel_spec (r : Rec) :
    ((getField r "Department" = none ∨ getField r "Department" = some .vnull) →
      departmentLabel r = "Unknown Department") ∧
    (∀ v, getField r "Department" = some v → v ≠ .vnull →
      departmentLabel r = jsToString v) ∧
    (∀ s, getField r "Department" = some (.str s) → departmentLabel r = s) := by
  refine ⟨?_, ?_, ?_⟩
  · rintro (h | h) <;> simp [departmentLabel, h]
  · intro v hv hnn
    cases v with
    | vnull => exact absurd rfl hnn
    | num q => simp [departmentLabel, hv]
    | str s => simp [departmentLabel, hv]
    | bool b => simp [departmentLabel, hv]
  · intro s hs
    simp [departmentLabel, hs, jsToString]

/-- C10 witness: the empty string, `0` and `false` all avoid the fallback
label. -/
theorem departmentLabel_spec_witness :
    departmentLabel [("Department", Value.str "")] = "" ∧
      departmentLabel [("Department", Value.num 0)] = "0" ∧
      departmentLabel [("Department", Value.bool false)] = "false" ∧
      departmentLabel [("Department", Value.vnull)] = "Unknown Department" :=
  ⟨(departmentLabel_spec [("Department", Value.str "")]).2.2 "" (by decide),
    (departmentLabel_spec [("Department", Value.num 0)]).2.1 (Value.num 0) (by decide)
      (by decide),
    (departmentLabel_spec [("Department", Value.bool false)]).2.1 (Value.bool false)
      (by decide) (by decide),
    (departmentLabel_spec [("Department", Value.vnull)]).1 (Or.inr (by decide))⟩

end AnalyzeRoute
